import Mathlib

/-!
Formal model of the debt-bot ledger (bot.py).

The SQLite table `ledger` is modelled as a list of rows plus the next
AUTOINCREMENT id.  SQL queries are translated row-by-row: `WHERE` clauses
become `List.filter` with the same boolean conditions, `SUM` becomes a list
sum (with `COALESCE(SUM(..),0)` giving `0` on the empty list), `ORDER BY id
DESC LIMIT n` becomes a sort by descending id followed by `List.take`.
Timestamps (`created_at`) are omitted: every query in the program orders and
selects by `id`, never by `created_at`.
-/

/-- One row of the `ledger` table (bot.py, SQL_INIT). -/
structure Row where
  id : Nat
  guild_id : Int
  channel_id : Int
  creditor_id : Int
  debtor_id : Int
  amount_cents : Int
  currency : String
  kind : String
  note : Option String
  created_by : Int
deriving Repr, DecidableEq

/-- The ledger store: the rows plus the next AUTOINCREMENT id. -/
structure Ledger where
  rows : List Row
  nextId : Nat
deriving Repr, DecidableEq

/-- Failures of `add_entry`: the explicit creditor=debtor guard raises
`ValueError`, and the schema constraint `CHECK(amount_cents > 0)` makes the
INSERT itself fail for a non-positive amount. -/
inductive InsertError
  | selfReferential
  | checkViolation
deriving Repr, DecidableEq

/-- Python `note or None`: an empty-string note is stored as NULL. -/
def noteOrNone : Option String → Option String
  | some s => if s = "" then none else some s
  | none => none

/-- Model of `add_entry` (bot.py lines 72-84).  Checks creditor ≠ debtor,
then inserts one row (the schema CHECK rejects amount_cents ≤ 0) and returns
the new ledger together with the assigned id (`lastrowid`). -/
def add_entry (l : Ledger) (guild channel creditor debtor : Int) (amount : Int)
    (ccy kind : String) (note : Option String) (createdBy : Int) :
    Except InsertError (Ledger × Nat) :=
  if creditor = debtor then
    .error .selfReferential
  else if amount ≤ 0 then
    .error .checkViolation
  else
    .ok (⟨l.rows ++
      [⟨l.nextId, guild, channel, creditor, debtor, amount, ccy, kind,
        noteOrNone note, createdBy⟩], l.nextId + 1⟩, l.nextId)

/-- One directed sum of `pair_net_cents` (bot.py lines 86-98):
`SELECT COALESCE(SUM(amount_cents),0) FROM ledger WHERE guild_id=? AND
creditor_id=? AND debtor_id=?`. -/
def sumDirected (l : Ledger) (guild a b : Int) : Int :=
  ((l.rows.filter
      (fun r => r.guild_id == guild && r.creditor_id == a && r.debtor_id == b)).map
    (fun r => r.amount_cents)).sum

/-- Model of `pair_net_cents` (bot.py lines 86-98): the A→B sum minus the
B→A sum. -/
def pair_net_cents (l : Ledger) (guild a b : Int) : Int :=
  sumDirected l guild a b - sumDirected l guild b a

/-- The `pairs` CTE of `top_counterparties` (bot.py lines 100-120): rows of
the guild where the queried party is creditor or debtor. -/
def top_pairs (l : Ledger) (guild me : Int) : List Row :=
  l.rows.filter
    (fun r => r.guild_id == guild && (r.creditor_id == me || r.debtor_id == me))

/-- The UNION ALL subquery of `top_counterparties`: each row where the party
is creditor contributes `(debtor, +amount)` (role 'recv'); each row where the
party is debtor contributes `(creditor, -amount)` (role 'pay'). -/
def top_contribs (l : Ledger) (guild me : Int) : List (Int × Int) :=
  ((top_pairs l guild me).filter (fun r => r.creditor_id == me)).map
      (fun r => (r.debtor_id, r.amount_cents)) ++
    ((top_pairs l guild me).filter (fun r => r.debtor_id == me)).map
      (fun r => (r.creditor_id, -r.amount_cents))

/-- GROUP BY key list: the distinct `other_id` values of the contributions. -/
def groupKeys (contribs : List (Int × Int)) : List Int :=
  (contribs.map (fun p => p.1)).dedup

/-- The aggregated `net` of one group: the sum of the signed contributions
with the given `other_id`. -/
def groupNet (contribs : List (Int × Int)) (o : Int) : Int :=
  ((contribs.filter (fun p => p.1 == o)).map (fun p => p.2)).sum

/-- The grouped rows of `top_counterparties` after `HAVING net != 0`, before
ORDER BY / LIMIT. -/
def top_nonzero (l : Ledger) (guild me : Int) : List (Int × Int) :=
  ((groupKeys (top_contribs l guild me)).map
      (fun o => (o, groupNet (top_contribs l guild me) o))).filter
    (fun p => !(p.2 == 0))

/-- Ordered by descending absolute net, as `ORDER BY ABS(net) DESC`. -/
def SortedByAbsDesc (res : List (Int × Int)) : Prop :=
  res.Pairwise (fun p q => q.2.natAbs ≤ p.2.natAbs)

/-- Output relation of `top_counterparties` (bot.py lines 100-120).  SQL
leaves the relative order of rows with equal `ABS(net)` unspecified, so the
model admits any permutation of the grouped nonzero rows that is sorted by
descending absolute net, truncated by `LIMIT`. -/
def IsTopCounterparties (l : Ledger) (guild me : Int) (limit : Nat)
    (res : List (Int × Int)) : Prop :=
  ∃ full : List (Int × Int),
    full.Perm (top_nonzero l guild me) ∧ SortedByAbsDesc full ∧
      res = full.take limit

/-- Ordering claimed by the specification for `counterpartyNets`: descending
absolute net with ties broken by the lowest counterparty identifier. -/
def TieBreakLowestId (res : List (Int × Int)) : Prop :=
  res.Pairwise
    (fun p q => q.2.natAbs < p.2.natAbs ∨ (q.2.natAbs = p.2.natAbs ∧ p.1 < q.1))

/-- Python `limit or d` for an optional integer argument: `None` and `0` are
falsy and give the default. -/
def orIfZero (v : Option Int) (d : Int) : Int :=
  match v with
  | none => d
  | some x => if x = 0 then d else x

/-- Effective limit of `/history` (bot.py line 235): `max(1, min(50, limit or 10))`. -/
def historyLimit (v : Option Int) : Int := max 1 (min 50 (orIfZero v 10))

/-- Effective limit of `/between` (bot.py line 277): `max(1, min(20, limit or 5))`. -/
def betweenLimit (v : Option Int) : Int := max 1 (min 20 (orIfZero v 5))

/-- Model of `recent_entries` (bot.py lines 122-144).  Python tests `if b_id:`
so both `None` and `0` select the one-sided query.  `ORDER BY id DESC LIMIT n`
is a descending-id sort followed by `take` (all callers clamp the limit to at
least 1, so SQLite's negative-LIMIT behaviour is unreachable). -/
def recent_entries (l : Ledger) (guild a : Int) (b : Option Int) (limit : Int) :
    List Row :=
  let bEff : Option Int :=
    match b with
    | some v => if v = 0 then none else some v
    | none => none
  let keep : Row → Bool :=
    match bEff with
    | some bv => fun r => r.guild_id == guild &&
        ((r.creditor_id == a && r.debtor_id == bv) ||
          (r.creditor_id == bv && r.debtor_id == a))
    | none => fun r => r.guild_id == guild &&
        (r.creditor_id == a || r.debtor_id == a)
  (List.insertionSort (fun r s => s.id ≤ r.id) (l.rows.filter keep)).take
    limit.toNat

/-- Filter of `pop_last_entry`: guild, channel and author must match. -/
def matchesUndo (guild channel createdBy : Int) (r : Row) : Bool :=
  r.guild_id == guild && r.channel_id == channel && r.created_by == createdBy

/-- Accumulator step selecting the row with the greatest id. -/
def pickLater (acc : Option Row) (r : Row) : Option Row :=
  match acc with
  | none => some r
  | some m => if m.id < r.id then some r else some m

/-- The `SELECT ... ORDER BY id DESC LIMIT 1` of `pop_last_entry`: the
matching row with the greatest id, or `none`. -/
def lastMatching (l : Ledger) (guild channel createdBy : Int) : Option Row :=
  (l.rows.filter (matchesUndo guild channel createdBy)).foldl pickLater none

/-- Model of `pop_last_entry` (bot.py lines 147-165): select the newest
matching row; if none, roll back and return `none` leaving the store
unchanged; otherwise `DELETE FROM ledger WHERE id=?` and return the row. -/
def pop_last_entry (l : Ledger) (guild channel createdBy : Int) :
    Option Row × Ledger :=
  match lastMatching l guild channel createdBy with
  | none => (none, l)
  | some row =>
      (some row, ⟨l.rows.filter (fun r => !(r.id == row.id)), l.nextId⟩)

/-- Failures of `parse_amount_to_cents`: the two distinct `ValueError`
messages of bot.py lines 65 and 69. -/
inductive AmountError
  | invalidFormat
  | nonPositive
deriving Repr, DecidableEq

/-- Whitespace as stripped by Python `str.strip()` (modelled with Lean's
`Char.isWhitespace`; the inputs of interest are ASCII). -/
def isSpaceChar (c : Char) : Bool := c.isWhitespace

/-- Python `str.strip()`: drop leading and trailing whitespace. -/
def stripChars (cs : List Char) : List Char :=
  ((cs.dropWhile isSpaceChar).reverse.dropWhile isSpaceChar).reverse

/-- Maximal leading run of digits and the rest (the greedy `\d+` / `\d{1,2}`
of AMOUNT_RE, with `\d` read as ASCII digits). -/
def takeDigits : List Char → List Char × List Char
  | [] => ([], [])
  | c :: cs =>
      if c.isDigit then
        let p := takeDigits cs
        (c :: p.1, p.2)
      else ([], c :: cs)

/-- Numeric value of a digit character. -/
def digitVal (c : Char) : Nat := c.toNat - 48

/-- Numeric value of a digit string. -/
def digitsToNat (ds : List Char) : Nat :=
  ds.foldl (fun acc c => 10 * acc + digitVal c) 0

/-- Cent value of the fractional digits: one digit means tenths, two digits
mean tenths and hundredths. -/
def fracToCents : List Char → Nat
  | [] => 0
  | [c] => 10 * digitVal c
  | c :: d :: _ => 10 * digitVal c + digitVal d

/-- Anchored match of `AMOUNT_RE = ^\d+(?:[.,]\d{1,2})?$` (bot.py line 54),
returning the integer digits and the (possibly empty) fraction digits.  The
match exists exactly when the string is a nonempty digit run, optionally
followed by `.` or `,` and one or two digits. -/
def amountReMatch (cs : List Char) : Option (List Char × List Char) :=
  let ip := takeDigits cs
  if ip.1 = [] then none
  else
    match ip.2 with
    | [] => some (ip.1, [])
    | sep :: rest =>
        if sep = '.' ∨ sep = ',' then
          let fp := takeDigits rest
          if fp.2 = [] ∧ fp.1 ≠ [] ∧ fp.1.length ≤ 2 then some (ip.1, fp.1)
          else none
        else none

/-- Exact cent value of a matched amount string.  bot.py computes
`int(round(float(num) * 100))` after replacing `,` with `.`; that float
path coincides with this exact value only below about 2^52 cents and
diverges above (see `pyParseCents`, which models the float path itself, and
the C3 evaluation).  The exact value is what the claims about the error
taxonomy need: on the zero/nonzero boundary the two computations agree for
every matched string, since a matched string with any nonzero digit has
exact value ≥ 0.01 whose float conversion rounds to at least 1 cent. -/
def centsOfParts (ip fp : List Char) : Nat :=
  digitsToNat ip * 100 + fracToCents fp

/-- Model of `parse_amount_to_cents` (bot.py lines 61-70): strip, match
AMOUNT_RE (else `InvalidAmountFormat`), convert to cents, reject a
non-positive result (`NonPositiveAmount`). -/
def parse_amount_to_cents (s : String) : Except AmountError Nat :=
  match amountReMatch (stripChars s.data) with
  | none => .error .invalidFormat
  | some p =>
      let cents := centsOfParts p.1 p.2
      if cents ≤ 0 then .error .nonPositive else .ok cents

/-- Two-decimal-digit rendering of a value below 100, zero-padded. -/
def pad2 (n : Nat) : String :=
  if n < 10 then "0" ++ Nat.repr n else Nat.repr n

/-- Exact two-decimal rendering of a number of cents: the integer part, a
dot, and exactly two fraction digits.  bot.py renders `f"{cents/100:.2f}"`
through a float division, which agrees with this only while `cents/100` is
exactly representable in binary64 (below about 2^52 cents) and diverges
above; `pyRenderCents` models the float rendering itself. -/
def format_cents (cents : Nat) : String :=
  Nat.repr (cents / 100) ++ "." ++ pad2 (cents % 100)

/-- Canonical two-decimal rendering of a matched amount string: its integer
part without leading zeros, a dot, and the fraction padded to two digits. -/
def canonicalTwoDecimal (ip fp : List Char) : String :=
  Nat.repr (digitsToNat ip) ++ "." ++ pad2 (fracToCents fp)

/-- Fuelled floor base-2 logarithm; structural recursion on the fuel keeps
it kernel-computable (the library's well-founded version does not reduce). -/
def log2Fuel : Nat → Nat → Nat
  | 0, _ => 0
  | fuel + 1, n => if 2 ≤ n then log2Fuel fuel (n / 2) + 1 else 0

/-- Floor base-2 logarithm: the fuel `n` dominates the recursion depth. -/
def natLog2 (n : Nat) : Nat := log2Fuel n n

/-- Binary64 normalization check: shift `k` puts `num/den` into the 53-bit
mantissa window, `2^52 ≤ floor(num·2^k/den) < 2^53`, stated on the scaled
integers so that negative shifts need no rational arithmetic. -/
def normOK (num den : Nat) (k : Int) : Bool :=
  decide (2 ^ 52 * (den * 2 ^ (max (-k) 0).toNat) ≤
      num * 2 ^ (max k 0).toNat) &&
    decide (num * 2 ^ (max k 0).toNat < 2 ^ 53 * (den * 2 ^ (max (-k) 0).toNat))

/-- The normalizing shift for a positive `num/den`, found next to
`52 - log2(num/den)`. -/
def pickK (num den : Nat) : Int :=
  let k0 : Int := 52 - ((natLog2 num : Int) - (natLog2 den : Int))
  if normOK num den (k0 - 1) then k0 - 1
  else if normOK num den k0 then k0
  else k0 + 1

/-- Round the positive rational `num/den` to the nearest IEEE-754 binary64
value (53-bit significand, ties to even), returned as `(m, e)` with exact
value `m·2^e`.  CPython's decimal-string-to-float conversion, float
multiplication, and int/int true division each perform exactly one such
correct rounding of the exact result, which is how this model is used. -/
def rnd53 (num den : Nat) : Nat × Int :=
  let k := pickK num den
  let N := num * 2 ^ (max k 0).toNat
  let D := den * 2 ^ (max (-k) 0).toNat
  let q := N / D
  let r := N % D
  let m := if 2 * r > D then q + 1
    else if 2 * r = D then (if q % 2 = 1 then q + 1 else q) else q
  if m = 2 ^ 53 then (2 ^ 52, 1 - k) else (m, -k)

/-- The exact rational value `(numerator, denominator)` of a binary64 pair. -/
def ratOfFloat (f : Nat × Int) : Nat × Nat :=
  (f.1 * 2 ^ (max f.2 0).toNat, 2 ^ (max (-f.2) 0).toNat)

/-- Round a nonnegative rational to the nearest integer with ties to even:
the semantics of Python `round(x)` on the exact value of a float, and of
the tie handling inside `%.2f` fixed-precision rendering. -/
def roundHalfEvenRat (r : Nat × Nat) : Nat :=
  let q := r.1 / r.2
  let rem := r.1 % r.2
  if 2 * rem > r.2 then q + 1
  else if 2 * rem = r.2 then (if q % 2 = 1 then q + 1 else q) else q

/-- The code's `int(round(float(num) * 100))` (bot.py line 67), evaluated
on a matched amount string whose exact value is `c / 100`: `float(num)` is
the binary64 value nearest `c/100`, the product with 100 is rounded once
more to binary64, and `round` rounds the exact value of that double to an
integer with ties to even. -/
def pyParseCents (c : Nat) : Nat :=
  let x := rnd53 c 100
  let xr := ratOfFloat x
  let y := rnd53 (xr.1 * 100) xr.2
  roundHalfEvenRat (ratOfFloat y)

/-- The code's reply rendering `f"{cents/100:.2f}"` (bot.py line 181) for
an integer number of cents: CPython divides the int by 100 with one correct
rounding to binary64, then renders that double's exact value with two fixed
decimals (ties to even) — the exact two-decimal rendering of the half-even
rounding of that value times 100. -/
def pyRenderCents (c : Nat) : String :=
  let y := rnd53 c 100
  let yr := ratOfFloat y
  format_cents (roundHalfEvenRat (yr.1 * 100, yr.2))

/-- Failure of the split allocator. -/
inductive SplitError
  | noParticipants
deriving Repr, DecidableEq

/-- A transaction emitted by the split allocator. -/
structure SplitTx where
  creditor : Int
  debtor : Int
  amount : Nat
  kind : String
deriving Repr, DecidableEq

/-- Modelled from the spec: the deterministic remainder policy of
`splitEqual` (spec §4.4); the `split_equal` command itself was removed from
bot.py (only `REMOVED_CMD_NAMES` remains, line 292).  The first `rem`
participants receive `share + 1`, the rest receive `share`. -/
def splitShares : Nat → Nat → Nat → List Nat
  | 0, _, _ => []
  | n + 1, share, 0 => share :: splitShares n share 0
  | n + 1, share, rem + 1 => (share + 1) :: splitShares n share rem

/-- Modelled from the spec: the participant list of `splitEqual` (spec §4.4)
— the supplied parties with the payer removed, de-duplicated, and sorted
into ascending identifier order. -/
def splitParticipants (payer : Int) (supplied : List Int) : List Int :=
  List.insertionSort (fun a b => a ≤ b)
    ((supplied.filter (fun x => !(x == payer))).dedup)

/-- Modelled from the spec: `splitEqual` (spec §4.4), absent from bot.py
(the `split_equal` command was removed).  Rejects an empty participant set;
otherwise computes `share = totalMinor div n` and
`remainder = totalMinor - share * n`, gives the first `remainder`
participants in ascending identifier order `share + 1` and the rest `share`,
and emits one `kind=split` transaction per participant with the payer as
creditor. -/
def splitEqual (totalMinor : Nat) (payer : Int) (supplied : List Int) :
    Except SplitError (List SplitTx) :=
  let ps := splitParticipants payer supplied
  if ps = [] then .error .noParticipants
  else
    let n := ps.length
    let share := totalMinor / n
    let rem := totalMinor - share * n
    .ok (List.zipWith (fun p a => ⟨payer, p, a, "split"⟩) ps
      (splitShares n share rem))

/-! Helper lemmas. -/

theorem digit_toNat_bounds (c : Char) (h : c.isDigit = true) :
    48 ≤ c.toNat ∧ c.toNat ≤ 57 := by
  unfold Char.isDigit at h
  rw [Bool.and_eq_true, decide_eq_true_iff, decide_eq_true_iff] at h
  obtain ⟨h1, h2⟩ := h
  rw [ge_iff_le, UInt32.le_def, BitVec.le_def] at h1
  rw [UInt32.le_def, BitVec.le_def] at h2
  exact ⟨h1, h2⟩

theorem digit_not_space (c : Char) (h : c.isDigit = true) :
    isSpaceChar c = false := by
  by_contra hw
  rw [Bool.not_eq_false] at hw
  unfold isSpaceChar Char.isWhitespace at hw
  simp only [Bool.or_eq_true, decide_eq_true_iff] at hw
  rcases hw with ⟨⟨h1 | h1⟩ | h1⟩ | h1 <;> subst h1 <;> revert h <;> decide

theorem digitVal_le_nine (c : Char) (h : c.isDigit = true) : digitVal c ≤ 9 := by
  have := digit_toNat_bounds c h
  unfold digitVal
  omega

theorem take_length_le_bound (xs : List Row) (n : Nat) :
    (xs.take n).length ≤ n := by
  simp [List.length_take]

/-! Claim C6 — antisymmetry of the net balance. -/

/-- C6: for every ledger, scope and pair of parties,
`pair_net_cents(scope, A, B) = -pair_net_cents(scope, B, A)`. -/
theorem pair_net_cents_antisymm :
    ∀ (l : Ledger) (g a b : Int),
      pair_net_cents l g a b = -pair_net_cents l g b a := by
  intro l g a b
  unfold pair_net_cents
  omega

/-! Claim C7 — the net balance is the difference of the two directed sums,
each of which is 0 on no data. -/

/-- C7: `pair_net_cents` equals the A→B directed sum minus the B→A directed
sum; a directed sum with no matching rows is 0 (not an error); the net over
an empty store is 0. -/
theorem pair_net_cents_formula :
    ∀ (l : Ledger) (g a b : Int),
      pair_net_cents l g a b = sumDirected l g a b - sumDirected l g b a ∧
      (l.rows.filter
          (fun r => r.guild_id == g && r.creditor_id == a && r.debtor_id == b) =
            [] →
        sumDirected l g a b = 0) ∧
      (∀ n : Nat, pair_net_cents ⟨[], n⟩ g a b = 0) := by
  intro l g a b
  refine ⟨rfl, ?_, ?_⟩
  · intro h
    simp [sumDirected, h]
  · intro n
    simp [pair_net_cents, sumDirected]

/-- Witness for C7 at a concrete store. -/
theorem pair_net_cents_formula_witness :
    pair_net_cents ⟨[], 0⟩ 0 1 2 =
        sumDirected ⟨[], 0⟩ 0 1 2 - sumDirected ⟨[], 0⟩ 0 2 1 ∧
      sumDirected ⟨[], 0⟩ 0 1 2 = 0 ∧ pair_net_cents ⟨[], 5⟩ 0 1 2 = 0 :=
  ⟨(pair_net_cents_formula ⟨[], 0⟩ 0 1 2).1,
    (pair_net_cents_formula ⟨[], 0⟩ 0 1 2).2.1 (by decide),
    (pair_net_cents_formula ⟨[], 0⟩ 0 1 2).2.2 5⟩

/-! Claim C5 — the self-referential guard of `add_entry`.  The claim as
stated fails: even with creditor ≠ debtor an insert with a non-positive
amount is rejected by the schema constraint `CHECK(amount_cents > 0)`, so
the success half needs a positivity hypothesis. -/

/-- Counterexample to C5 as stated: an insert with creditor 1 ≠ debtor 2 but
amount 0 does not succeed — the CHECK constraint rejects it. -/
theorem add_entry_nonpositive_counterexample :
    (1 : Int) ≠ 2 ∧
      add_entry ⟨[], 0⟩ 0 0 1 2 0 "TWD" "debt" none 1 =
        .error .checkViolation := by
  exact ⟨by decide, rfl⟩

/-- C5 (amended with a positive amount): `add_entry` fails with the
self-referential error when creditor = debtor, leaving the store unchanged
(no ledger is produced); with creditor ≠ debtor and a positive amount it
succeeds, appending exactly one row and returning the next identifier. -/
theorem add_entry_guard_spec :
    ∀ (l : Ledger) (g ch creditor debtor amount : Int) (ccy kind : String)
      (note : Option String) (createdBy : Int),
      (creditor = debtor →
        add_entry l g ch creditor debtor amount ccy kind note createdBy =
          .error .selfReferential) ∧
      (creditor ≠ debtor → 0 < amount →
        add_entry l g ch creditor debtor amount ccy kind note createdBy =
          .ok (⟨l.rows ++
            [⟨l.nextId, g, ch, creditor, debtor, amount, ccy, kind,
              noteOrNone note, createdBy⟩], l.nextId + 1⟩, l.nextId)) := by
  intro l g ch creditor debtor amount ccy kind note createdBy
  constructor
  · intro h
    simp [add_entry, h]
  · intro hne hpos
    have hng : ¬amount ≤ 0 := by omega
    simp [add_entry, hne, hng]

/-- Witness for C5's amended theorem. -/
theorem add_entry_guard_spec_witness :
    add_entry ⟨[], 0⟩ 0 0 3 3 100 "TWD" "debt" none 3 =
        .error .selfReferential ∧
      add_entry ⟨[], 0⟩ 0 0 1 2 100 "TWD" "debt" none 1 =
        .ok (⟨[⟨0, 0, 0, 1, 2, 100, "TWD", "debt", none, 1⟩], 1⟩, 0) :=
  ⟨(add_entry_guard_spec ⟨[], 0⟩ 0 0 3 3 100 "TWD" "debt" none 3).1 rfl,
    (add_entry_guard_spec ⟨[], 0⟩ 0 0 1 2 100 "TWD" "debt" none 1).2
      (by decide) (by decide)⟩

/-! Claim C9 — limit clamping of `/history` and `/between`. -/

/-- C9: for every supplied limit (absent, zero, negative or large) the
history limit is clamped into [1, 50] with default 10, the between limit
into [1, 20] with default 5, and `recent_entries` never returns more rows
than the clamped bound. -/
theorem query_limit_clamping :
    ∀ (v : Option Int) (l : Ledger) (g a : Int) (b : Option Int),
      1 ≤ historyLimit v ∧ historyLimit v ≤ 50 ∧
      historyLimit none = 10 ∧ historyLimit (some 0) = 10 ∧
      1 ≤ betweenLimit v ∧ betweenLimit v ≤ 20 ∧
      betweenLimit none = 5 ∧ betweenLimit (some 0) = 5 ∧
      (recent_entries l g a b (historyLimit v)).length ≤
        (historyLimit v).toNat ∧
      (recent_entries l g a b (betweenLimit v)).length ≤
        (betweenLimit v).toNat := by
  intro v l g a b
  refine ⟨le_max_left _ _, max_le (by norm_num) (min_le_left _ _), by decide,
    by decide, le_max_left _ _, max_le (by norm_num) (min_le_left _ _),
    by decide, by decide, ?_, ?_⟩
  · unfold recent_entries
    exact take_length_le_bound _ _
  · unfold recent_entries
    exact take_length_le_bound _ _

/-! Money-codec lemmas. -/

theorem takeDigits_of_digits (ds : List Char)
    (h : ∀ c ∈ ds, c.isDigit = true) : takeDigits ds = (ds, []) := by
  induction ds with
  | nil => rfl
  | cons c cs ih =>
      have hc : c.isDigit = true := h c (by simp)
      have ih' := ih (fun x hx => h x (by simp [hx]))
      simp [takeDigits, hc, ih']

theorem takeDigits_append_stop (ds : List Char) (c : Char) (rest : List Char)
    (h : ∀ x ∈ ds, x.isDigit = true) (hc : c.isDigit = false) :
    takeDigits (ds ++ c :: rest) = (ds, c :: rest) := by
  induction ds with
  | nil => simp [takeDigits, hc]
  | cons d ds ih =>
      have hd : d.isDigit = true := h d (by simp)
      have ih' := ih (fun x hx => h x (by simp [hx]))
      simp [takeDigits, hd, ih']

theorem takeDigits_fst_digits :
    ∀ cs : List Char, ∀ c ∈ (takeDigits cs).1, c.isDigit = true := by
  intro cs
  induction cs with
  | nil => simp [takeDigits]
  | cons c cs ih =>
      by_cases hc : c.isDigit
      · simp only [takeDigits, hc, if_true]
        intro x hx
        rcases List.mem_cons.mp hx with h | h
        · exact h ▸ hc
        · exact ih x h
      · simp [takeDigits, hc]

theorem dropWhile_of_all_false {p : Char → Bool} (cs : List Char)
    (h : ∀ c ∈ cs, p c = false) : cs.dropWhile p = cs := by
  cases cs with
  | nil => rfl
  | cons c cs => simp [List.dropWhile_cons, h c (by simp)]

theorem stripChars_of_no_space (cs : List Char)
    (h : ∀ c ∈ cs, isSpaceChar c = false) : stripChars cs = cs := by
  unfold stripChars
  rw [dropWhile_of_all_false cs h]
  rw [dropWhile_of_all_false cs.reverse (fun c hc => h c (List.mem_reverse.mp hc))]
  exact List.reverse_reverse cs

theorem amountReMatch_digits (cs ip fp : List Char)
    (h : amountReMatch cs = some (ip, fp)) :
    (∀ c ∈ ip, c.isDigit = true) ∧ (∀ c ∈ fp, c.isDigit = true) := by
  have hds := takeDigits_fst_digits cs
  rcases htd : takeDigits cs with ⟨ds, rest⟩
  rw [htd] at hds
  unfold amountReMatch at h
  simp only [htd] at h
  by_cases hnil : ds = []
  · simp [hnil] at h
  · simp only [hnil, if_false] at h
    cases rest with
    | nil =>
        obtain ⟨rfl, rfl⟩ := Prod.ext_iff.mp (Option.some.inj h)
        exact ⟨hds, by simp⟩
    | cons sep rest2 =>
        by_cases hsep : sep = '.' ∨ sep = ','
        · simp only [hsep, if_true] at h
          have hfs := takeDigits_fst_digits rest2
          rcases htf : takeDigits rest2 with ⟨fs, frest⟩
          rw [htf] at hfs
          simp only [htf] at h
          by_cases hcond : frest = [] ∧ fs ≠ [] ∧ fs.length ≤ 2
          · rw [if_pos hcond] at h
            obtain ⟨rfl, rfl⟩ := Prod.ext_iff.mp (Option.some.inj h)
            exact ⟨hds, hfs⟩
          · simp [hcond] at h
        · simp [hsep] at h

theorem fracToCents_lt_100 (fp : List Char)
    (h : ∀ c ∈ fp, c.isDigit = true) : fracToCents fp < 100 := by
  match fp with
  | [] => simp [fracToCents]
  | [c] =>
      have := digitVal_le_nine c (h c (by simp))
      simp only [fracToCents]
      omega
  | c :: d :: rest =>
      have hc := digitVal_le_nine c (h c (by simp))
      have hd := digitVal_le_nine d (h d (by simp))
      simp only [fracToCents]
      omega

theorem amountReMatch_sep (d f : List Char) (sep : Char)
    (hd : d ≠ []) (hdd : ∀ c ∈ d, c.isDigit = true)
    (hf : f ≠ []) (hfl : f.length ≤ 2) (hfd : ∀ c ∈ f, c.isDigit = true)
    (hsep : sep = '.' ∨ sep = ',') (hsd : sep.isDigit = false) :
    amountReMatch (d ++ sep :: f) = some (d, f) := by
  unfold amountReMatch
  rw [takeDigits_append_stop d sep f hdd hsd]
  simp only [hd, if_false]
  rw [takeDigits_of_digits f hfd]
  simp [hsep, hf, hfl]

/-! Lemmas for `top_counterparties`: the grouped net of each counterparty is
exactly the pairwise net balance. -/

theorem sum_map_neg_int (xs : List Row) (f : Row → Int) :
    (xs.map (fun r => -f r)).sum = -((xs.map f).sum) := by
  induction xs with
  | nil => simp
  | cons x xs ih =>
      rw [List.map_cons, List.map_cons, List.sum_cons, List.sum_cons, ih]
      ring

theorem filter_chain_recv (l : Ledger) (g me o : Int) :
    ((top_pairs l g me).filter (fun r => r.creditor_id == me)).filter
        (fun r => r.debtor_id == o) =
      l.rows.filter
        (fun r => r.guild_id == g && r.creditor_id == me && r.debtor_id == o) := by
  unfold top_pairs
  rw [List.filter_filter, List.filter_filter]
  apply List.filter_congr
  intro r _
  cases hg : r.guild_id == g <;> cases hc : r.creditor_id == me <;>
    cases hdo : r.debtor_id == o <;> simp [hg, hc, hdo]

theorem filter_chain_pay (l : Ledger) (g me o : Int) :
    ((top_pairs l g me).filter (fun r => r.debtor_id == me)).filter
        (fun r => r.creditor_id == o) =
      l.rows.filter
        (fun r => r.guild_id == g && r.creditor_id == o && r.debtor_id == me) := by
  unfold top_pairs
  rw [List.filter_filter, List.filter_filter]
  apply List.filter_congr
  intro r _
  cases hg : r.guild_id == g <;> cases hc : r.creditor_id == o <;>
    cases hdm : r.debtor_id == me <;> simp [hg, hc, hdm]

theorem groupNet_top_contribs (l : Ledger) (g me o : Int) :
    groupNet (top_contribs l g me) o = pair_net_cents l g me o := by
  unfold groupNet top_contribs
  rw [List.filter_append, List.map_append, List.sum_append]
  rw [List.filter_map, List.filter_map, List.map_map, List.map_map]
  have e1 : ((fun p : Int × Int => p.1 == o) ∘
      fun r : Row => (r.debtor_id, r.amount_cents)) =
      fun r : Row => r.debtor_id == o := rfl
  have e2 : ((fun p : Int × Int => p.1 == o) ∘
      fun r : Row => (r.creditor_id, -r.amount_cents)) =
      fun r : Row => r.creditor_id == o := rfl
  have e3 : ((fun p : Int × Int => p.2) ∘
      fun r : Row => (r.debtor_id, r.amount_cents)) =
      fun r : Row => r.amount_cents := rfl
  have e4 : ((fun p : Int × Int => p.2) ∘
      fun r : Row => (r.creditor_id, -r.amount_cents)) =
      fun r : Row => -r.amount_cents := rfl
  rw [e1, e2, e3, e4, filter_chain_recv, filter_chain_pay, sum_map_neg_int]
  unfold pair_net_cents sumDirected
  ring

theorem mem_top_nonzero (l : Ledger) (g me : Int) (p : Int × Int)
    (hp : p ∈ top_nonzero l g me) :
    p.2 = pair_net_cents l g me p.1 ∧ p.2 ≠ 0 ∧
      p.1 ∈ groupKeys (top_contribs l g me) := by
  unfold top_nonzero at hp
  obtain ⟨hmem, hnz⟩ := List.mem_filter.mp hp
  obtain ⟨o, ho, heq⟩ := List.mem_map.mp hmem
  have h1 : p.1 = o := by rw [← heq]
  have h2 : p.2 = groupNet (top_contribs l g me) o := by rw [← heq]
  refine ⟨?_, ?_, h1 ▸ ho⟩
  · rw [h2, h1, groupNet_top_contribs]
  · intro hz
    rw [hz] at hnz
    simp at hnz

/-! Claim C2 — `top_counterparties`.  The SQL orders only by `ABS(net) DESC`
with no tie-break column, so the relative order of counterparties with equal
absolute net (claimed to be "lowest identifier first, deterministic") is not
guaranteed; the remaining properties hold and are proved below. -/

/-- Concrete two-row store in which party 10 has two counterparties with
equal absolute net: it is owed 5 by party 1 and owes 5 to party 2. -/
def exampleLedger : Ledger :=
  ⟨[⟨0, 0, 0, 10, 1, 5, "TWD", "debt", none, 10⟩,
    ⟨1, 0, 0, 2, 10, 5, "TWD", "debt", none, 10⟩], 2⟩

/-- Counterexample to C2 as stated: on `exampleLedger` both orders of the
two tied counterparties satisfy the code's output contract, so the code does
not break ties by lowest identifier and is not deterministic on ties. -/
theorem top_counterparties_tiebreak_counterexample :
    IsTopCounterparties exampleLedger 0 10 8 [(2, -5), (1, 5)] ∧
      IsTopCounterparties exampleLedger 0 10 8 [(1, 5), (2, -5)] ∧
      ¬TieBreakLowestId [(2, -5), (1, 5)] ∧
      [((2 : Int), (-5 : Int)), (1, 5)] ≠ [(1, 5), (2, -5)] := by
  refine ⟨⟨[(2, -5), (1, 5)], ?_, ?_, ?_⟩,
    ⟨[(1, 5), (2, -5)], ?_, ?_, ?_⟩, ?_, ?_⟩
  · decide
  · unfold SortedByAbsDesc
    decide
  · decide
  · decide
  · unfold SortedByAbsDesc
    decide
  · decide
  · unfold TieBreakLowestId
    decide
  · decide

/-- C2 (amended: the order among entries of equal absolute net is left
unspecified): every result of `top_counterparties` has at most `limit`
entries, is sorted by descending absolute net, pairs each listed
counterparty with its pairwise net balance (nonzero, and only for parties
sharing a row with the queried party), and — when the nonzero groups fit
within the limit — contains every counterparty with a nonzero net. -/
theorem top_counterparties_ordering_spec :
    ∀ (l : Ledger) (g me : Int) (limit : Nat) (res : List (Int × Int)),
      IsTopCounterparties l g me limit res →
      res.length ≤ limit ∧ SortedByAbsDesc res ∧
        (∀ p ∈ res, p.2 = pair_net_cents l g me p.1 ∧ p.2 ≠ 0 ∧
          p.1 ∈ groupKeys (top_contribs l g me)) ∧
        ((top_nonzero l g me).length ≤ limit →
          ∀ o ∈ groupKeys (top_contribs l g me),
            pair_net_cents l g me o ≠ 0 →
            (o, pair_net_cents l g me o) ∈ res) := by
  intro l g me limit res h
  obtain ⟨full, hperm, hsort, htake⟩ := h
  subst htake
  refine ⟨?_, ?_, ?_, ?_⟩
  · rw [List.length_take]
    exact Nat.min_le_left _ _
  · exact List.Pairwise.sublist (List.take_sublist _ _) hsort
  · intro p hp
    have hfull : p ∈ full := (List.take_sublist _ _).subset hp
    exact mem_top_nonzero l g me p (hperm.mem_iff.mp hfull)
  · intro hlen o ho hnz
    have hfull_len : full.length ≤ limit := by
      rw [hperm.length_eq]
      exact hlen
    rw [List.take_of_length_le hfull_len]
    apply hperm.mem_iff.mpr
    rw [← groupNet_top_contribs l g me o]
    unfold top_nonzero
    apply List.mem_filter.mpr
    refine ⟨List.mem_map.mpr ⟨o, ho, rfl⟩, ?_⟩
    rw [groupNet_top_contribs l g me o]
    simp [hnz]

/-- Witness for C2's amended theorem on `exampleLedger`. -/
theorem top_counterparties_ordering_spec_witness :
    ([((1 : Int), (5 : Int)), (2, -5)] : List (Int × Int)).length ≤ 8 ∧
      SortedByAbsDesc [(1, 5), (2, -5)] ∧
      (∀ p ∈ ([(1, 5), (2, -5)] : List (Int × Int)),
        p.2 = pair_net_cents exampleLedger 0 10 p.1 ∧ p.2 ≠ 0 ∧
          p.1 ∈ groupKeys (top_contribs exampleLedger 0 10)) ∧
      ((top_nonzero exampleLedger 0 10).length ≤ 8 →
        ∀ o ∈ groupKeys (top_contribs exampleLedger 0 10),
          pair_net_cents exampleLedger 0 10 o ≠ 0 →
          (o, pair_net_cents exampleLedger 0 10 o) ∈
            ([(1, 5), (2, -5)] : List (Int × Int))) :=
  top_counterparties_ordering_spec exampleLedger 0 10 8 [(1, 5), (2, -5)]
    ⟨[(1, 5), (2, -5)], by decide, by unfold SortedByAbsDesc; decide, by decide⟩

/-! Lemmas about the most-recent-row selection of `pop_last_entry`. -/

theorem foldl_pickLater_spec :
    ∀ (xs : List Row) (m : Row),
      ∃ m', xs.foldl pickLater (some m) = some m' ∧ (m' = m ∨ m' ∈ xs) ∧
        m.id ≤ m'.id ∧ ∀ r ∈ xs, r.id ≤ m'.id := by
  intro xs
  induction xs with
  | nil =>
      intro m
      exact ⟨m, rfl, Or.inl rfl, Nat.le_refl _, by simp⟩
  | cons x xs ih =>
      intro m
      rw [List.foldl_cons]
      by_cases h : m.id < x.id
      · have hstep : pickLater (some m) x = some x := by simp [pickLater, h]
        rw [hstep]
        obtain ⟨m', h1, h2, h3, h4⟩ := ih x
        refine ⟨m', h1, ?_, by omega, ?_⟩
        · rcases h2 with rfl | hm
          · exact Or.inr (List.mem_cons_self _ _)
          · exact Or.inr (List.mem_cons_of_mem _ hm)
        · intro r hr
          rcases List.mem_cons.mp hr with rfl | hr
          · exact h3
          · exact h4 r hr
      · have hstep : pickLater (some m) x = some m := by simp [pickLater, h]
        rw [hstep]
        obtain ⟨m', h1, h2, h3, h4⟩ := ih m
        refine ⟨m', h1, ?_, h3, ?_⟩
        · rcases h2 with rfl | hm
          · exact Or.inl rfl
          · exact Or.inr (List.mem_cons_of_mem _ hm)
        · intro r hr
          rcases List.mem_cons.mp hr with rfl | hr
          · omega
          · exact h4 r hr

theorem lastMatching_some_spec (l : Ledger) (g ch cb : Int) (row : Row)
    (h : lastMatching l g ch cb = some row) :
    row ∈ l.rows.filter (matchesUndo g ch cb) ∧
      ∀ r ∈ l.rows.filter (matchesUndo g ch cb), r.id ≤ row.id := by
  unfold lastMatching at h
  cases hf : l.rows.filter (matchesUndo g ch cb) with
  | nil =>
      rw [hf] at h
      exact absurd h (by simp)
  | cons x xs =>
      rw [hf, List.foldl_cons] at h
      have hstep : pickLater none x = some x := rfl
      rw [hstep] at h
      obtain ⟨m', h1, h2, h3, h4⟩ := foldl_pickLater_spec xs x
      rw [h1, Option.some_inj] at h
      subst h
      constructor
      · rcases h2 with rfl | hm
        · exact List.mem_cons_self _ _
        · exact List.mem_cons_of_mem _ hm
      · intro r hr
        rcases List.mem_cons.mp hr with rfl | hr
        · exact h3
        · exact h4 r hr

theorem perm_cons_filter_ne_id :
    ∀ (rows : List Row) (row : Row), row ∈ rows →
      (rows.map (fun r => r.id)).Nodup →
      rows.Perm (row :: rows.filter (fun r => !(r.id == row.id))) := by
  intro rows
  induction rows with
  | nil =>
      intro row hmem
      cases hmem
  | cons x xs ih =>
      intro row hmem hnd
      rw [List.map_cons, List.nodup_cons] at hnd
      obtain ⟨hx_notin, hnd'⟩ := hnd
      rcases List.mem_cons.mp hmem with rfl | hmem'
      · have hfilter : xs.filter (fun r => !(r.id == row.id)) = xs := by
          apply List.filter_eq_self.mpr
          intro r hr
          have : r.id ≠ row.id := by
            intro he
            exact hx_notin (List.mem_map.mpr ⟨r, hr, he⟩)
          simp [this]
        have hcons : (row :: xs).filter (fun r => !(r.id == row.id)) = xs := by
          simp [List.filter_cons, hfilter]
        rw [hcons]
      · have hx_ne : x.id ≠ row.id := by
          intro he
          exact hx_notin (he ▸ List.mem_map.mpr ⟨row, hmem', rfl⟩)
        have hcons : (x :: xs).filter (fun r => !(r.id == row.id)) =
            x :: xs.filter (fun r => !(r.id == row.id)) := by
          simp [List.filter_cons, hx_ne]
        rw [hcons]
        exact (List.Perm.cons x (ih row hmem' hnd')).trans
          (List.Perm.swap row x _)

/-! Claim C4 — `pop_last_entry` deletes exactly the newest matching row, or
reports `none` without touching the store. -/

/-- C4: if no row matches (scope, origin, actor), `pop_last_entry` returns
`none` and the store is unchanged; otherwise it returns the matching row of
greatest id and deletes exactly that row.  After inserting one matching row
into a store with no prior match, a first undo returns and deletes that row
and a second undo returns `none`. -/
theorem pop_last_entry_spec :
    ∀ (l : Ledger) (g ch cb : Int),
      (lastMatching l g ch cb = none → pop_last_entry l g ch cb = (none, l)) ∧
      (∀ row, lastMatching l g ch cb = some row →
        row ∈ l.rows ∧ matchesUndo g ch cb row = true ∧
        (∀ r ∈ l.rows, matchesUndo g ch cb r = true → r.id ≤ row.id) ∧
        pop_last_entry l g ch cb =
          (some row, ⟨l.rows.filter (fun r => !(r.id == row.id)), l.nextId⟩) ∧
        ((l.rows.map (fun r => r.id)).Nodup →
          l.rows.Perm (row :: l.rows.filter (fun r => !(r.id == row.id))))) ∧
      (∀ (creditor debtor amount : Int) (ccy kind : String)
          (note : Option String) (l1 : Ledger) (newId : Nat),
        (∀ r ∈ l.rows, matchesUndo g ch cb r = false) →
        (∀ r ∈ l.rows, r.id < l.nextId) →
        add_entry l g ch creditor debtor amount ccy kind note cb =
          .ok (l1, newId) →
        ∃ newRow, lastMatching l1 g ch cb = some newRow ∧
          pop_last_entry l1 g ch cb = (some newRow, ⟨l.rows, l1.nextId⟩) ∧
          pop_last_entry ⟨l.rows, l1.nextId⟩ g ch cb =
            (none, ⟨l.rows, l1.nextId⟩)) := by
  intro l g ch cb
  refine ⟨?_, ?_, ?_⟩
  · intro h
    unfold pop_last_entry
    rw [h]
  · intro row h
    obtain ⟨hmem, hmax⟩ := lastMatching_some_spec l g ch cb row h
    obtain ⟨hrow_mem, hrow_match⟩ := List.mem_filter.mp hmem
    refine ⟨hrow_mem, hrow_match, ?_, ?_, ?_⟩
    · intro r hr hmr
      exact hmax r (List.mem_filter.mpr ⟨hr, hmr⟩)
    · unfold pop_last_entry
      rw [h]
    · intro hnd
      exact perm_cons_filter_ne_id l.rows row hrow_mem hnd
  · intro creditor debtor amount ccy kind note l1 newId hnomatch hbound hadd
    unfold add_entry at hadd
    by_cases hcd : creditor = debtor
    · rw [if_pos hcd] at hadd
      exact absurd hadd (by simp)
    · rw [if_neg hcd] at hadd
      by_cases hamt : amount ≤ 0
      · rw [if_pos hamt] at hadd
        exact absurd hadd (by simp)
      · rw [if_neg hamt, Except.ok.injEq] at hadd
        injection hadd with h1 h2
        subst h1
        subst h2
        set newRow : Row :=
          ⟨l.nextId, g, ch, creditor, debtor, amount, ccy, kind,
            noteOrNone note, cb⟩ with hnewRow
        have hmatch_new : matchesUndo g ch cb newRow = true := by
          simp [matchesUndo, hnewRow]
        have hfilter_l : l.rows.filter (matchesUndo g ch cb) = [] := by
          apply List.filter_eq_nil_iff.mpr
          intro r hr
          simp [hnomatch r hr]
        have hfilter_one : [newRow].filter (matchesUndo g ch cb) = [newRow] := by
          simp [List.filter_cons, hmatch_new]
        have hfilter1 : (l.rows ++ [newRow]).filter (matchesUndo g ch cb) =
            [newRow] := by
          rw [List.filter_append, hfilter_l, hfilter_one]
          rfl
        have hlast1 : lastMatching ⟨l.rows ++ [newRow], l.nextId + 1⟩ g ch cb =
            some newRow := by
          show ((l.rows ++ [newRow]).filter
            (matchesUndo g ch cb)).foldl pickLater none = some newRow
          rw [hfilter1]
          rfl
        have hdel : (l.rows ++ [newRow]).filter
            (fun r => !(r.id == newRow.id)) = l.rows := by
          rw [List.filter_append]
          have h1 : l.rows.filter (fun r => !(r.id == newRow.id)) = l.rows := by
            apply List.filter_eq_self.mpr
            intro r hr
            have hne : r.id ≠ newRow.id := by
              have := hbound r hr
              rw [hnewRow]
              intro he
              simp only [he] at this
              omega
            simp [hne]
          have h2 : [newRow].filter (fun r => !(r.id == newRow.id)) = [] := by
            simp
          rw [h1, h2, List.append_nil]
        have hlast2 : lastMatching ⟨l.rows, l.nextId + 1⟩ g ch cb = none := by
          show (l.rows.filter (matchesUndo g ch cb)).foldl pickLater none = none
          rw [hfilter_l]
          rfl
        refine ⟨newRow, hlast1, ?_, ?_⟩
        · have hpop1 : pop_last_entry ⟨l.rows ++ [newRow], l.nextId + 1⟩
              g ch cb = (some newRow,
              ⟨(l.rows ++ [newRow]).filter (fun r => !(r.id == newRow.id)),
                l.nextId + 1⟩) := by
            unfold pop_last_entry
            rw [hlast1]
          rw [hdel] at hpop1
          exact hpop1
        · unfold pop_last_entry
          rw [hlast2]

/-- Witness for C4: the none outcome on an empty store, and the
insert-then-undo-twice scenario. -/
theorem pop_last_entry_spec_witness :
    pop_last_entry ⟨[], 0⟩ 0 0 7 = (none, ⟨[], 0⟩) ∧
      (∃ newRow,
        lastMatching ⟨[⟨0, 0, 0, 1, 2, 100, "TWD", "debt", none, 7⟩], 1⟩
            0 0 7 = some newRow ∧
          pop_last_entry ⟨[⟨0, 0, 0, 1, 2, 100, "TWD", "debt", none, 7⟩], 1⟩
              0 0 7 = (some newRow, ⟨[], 1⟩) ∧
          pop_last_entry ⟨[], 1⟩ 0 0 7 = (none, ⟨[], 1⟩)) :=
  ⟨(pop_last_entry_spec ⟨[], 0⟩ 0 0 7).1 rfl,
    (pop_last_entry_spec ⟨[], 0⟩ 0 0 7).2.2 1 2 100 "TWD" "debt" none
      ⟨[⟨0, 0, 0, 1, 2, 100, "TWD", "debt", none, 7⟩], 1⟩ 0 (by simp)
      (by simp) rfl⟩

/-! Claim C8 — the two failure kinds of the money parser. -/

/-- C8: `parse_amount_to_cents` fails with `InvalidAmountFormat` exactly on
strings whose trimmed form does not match AMOUNT_RE (in particular "abc",
"-5", "5.123", ""), and fails with the distinct `NonPositiveAmount` exactly
when the pattern matches but the cent value is ≤ 0 (in particular "0",
"0.00"). -/
theorem parse_error_taxonomy :
    ∀ s : String,
      (amountReMatch (stripChars s.data) = none →
        parse_amount_to_cents s = .error .invalidFormat) ∧
      (∀ ip fp, amountReMatch (stripChars s.data) = some (ip, fp) →
        (parse_amount_to_cents s = .error .nonPositive ↔
          centsOfParts ip fp ≤ 0)) ∧
      parse_amount_to_cents "abc" = .error .invalidFormat ∧
      parse_amount_to_cents "-5" = .error .invalidFormat ∧
      parse_amount_to_cents "5.123" = .error .invalidFormat ∧
      parse_amount_to_cents "" = .error .invalidFormat ∧
      parse_amount_to_cents "0" = .error .nonPositive ∧
      parse_amount_to_cents "0.00" = .error .nonPositive := by
  intro s
  refine ⟨?_, ?_, rfl, rfl, rfl, rfl, rfl, rfl⟩
  · intro h
    unfold parse_amount_to_cents
    rw [h]
  · intro ip fp h
    unfold parse_amount_to_cents
    rw [h]
    by_cases hc : centsOfParts ip fp ≤ 0
    · simp [hc]
    · simp [hc]

/-- Witness for C8 exercising both failure branches. -/
theorem parse_error_taxonomy_witness :
    parse_amount_to_cents "x7" = .error .invalidFormat ∧
      (parse_amount_to_cents "0,0" = .error .nonPositive ↔
        centsOfParts ['0'] ['0'] ≤ 0) :=
  ⟨(parse_error_taxonomy "x7").1 (by decide),
    (parse_error_taxonomy "0,0").2.1 ['0'] ['0'] (by decide)⟩

/-! Claim C10 — the comma separator is equivalent to the dot. -/

/-- C10: for every nonempty digit string `d` and every one-or-two-digit
string `f`, parsing `d`, a comma, `f` gives the same result as parsing `d`,
a dot, `f`. -/
theorem comma_dot_equivalence :
    ∀ (d f : List Char),
      d ≠ [] → (∀ c ∈ d, c.isDigit = true) →
      f ≠ [] → f.length ≤ 2 → (∀ c ∈ f, c.isDigit = true) →
      parse_amount_to_cents ⟨d ++ ',' :: f⟩ =
        parse_amount_to_cents ⟨d ++ '.' :: f⟩ := by
  intro d f hd hdd hf hfl hfd
  have key : ∀ sep : Char, sep = '.' ∨ sep = ',' → isSpaceChar sep = false →
      sep.isDigit = false →
      parse_amount_to_cents ⟨d ++ sep :: f⟩ =
        (if centsOfParts d f ≤ 0 then .error .nonPositive
          else .ok (centsOfParts d f)) := by
    intro sep hsep hsp hsd
    have hstrip : stripChars (String.data ⟨d ++ sep :: f⟩) = d ++ sep :: f := by
      apply stripChars_of_no_space
      intro c hc
      rcases List.mem_append.mp hc with h | h
      · exact digit_not_space c (hdd c h)
      · rcases List.mem_cons.mp h with h | h
        · exact h ▸ hsp
        · exact digit_not_space c (hfd c h)
    unfold parse_amount_to_cents
    rw [hstrip, amountReMatch_sep d f sep hd hdd hf hfl hfd hsep hsd]
  rw [key ',' (Or.inr rfl) (by decide) (by decide),
    key '.' (Or.inl rfl) (by decide) (by decide)]

/-- Witness for C10 at `1,5` versus `1.5`. -/
theorem comma_dot_equivalence_witness :
    parse_amount_to_cents ⟨['1'] ++ ',' :: ['5']⟩ =
      parse_amount_to_cents ⟨['1'] ++ '.' :: ['5']⟩ :=
  comma_dot_equivalence ['1'] ['5'] (by decide) (by decide) (by decide)
    (by decide) (by decide)

/-! Claim C3 — the parse/format round trip.  The claim states the spec's
intent (§4.1 "decimal value × 100, rounded to nearest integer"; glossary:
integer minor units exist "to avoid floating-point rounding error"), but
the code converts through binary64 (`int(round(float(num) * 100))` and
`f"{cents/100:.2f}"`), which breaks the round trip on large accepted
inputs: the code path is evaluated below at a concrete failing input. -/

set_option maxRecDepth 200000 in
/-- C3 (code bug, evaluated at the failing input): the accepted string
`90071992547409.93` has exact cent value 9007199254740993; the code's float
conversion parses it to 9007199254740994 cents, and the code's float
rendering of that result is `90071992547409.94` — not the canonical
two-decimal rendering of the input, so `format(parse(s))` does not
reproduce `s` as the claim requires. -/
theorem parse_float_path_code_bug :
    amountReMatch (stripChars "90071992547409.93".data) =
        some ("90071992547409".data, "93".data) ∧
      centsOfParts "90071992547409".data "93".data = 9007199254740993 ∧
      pyParseCents 9007199254740993 = 9007199254740994 ∧
      pyRenderCents 9007199254740994 = "90071992547409.94" ∧
      canonicalTwoDecimal "90071992547409".data "93".data =
        "90071992547409.93" ∧
      pyRenderCents (pyParseCents
          (centsOfParts "90071992547409".data "93".data)) ≠
        canonicalTwoDecimal "90071992547409".data "93".data := by
  refine ⟨by decide, by decide, by decide, by decide, by decide, by decide⟩

/-! Lemmas about the split-share list. -/

theorem length_splitShares :
    ∀ (n share rem : Nat), (splitShares n share rem).length = n := by
  intro n
  induction n with
  | zero =>
      intro share rem
      cases rem <;> rfl
  | succ n ih =>
      intro share rem
      cases rem with
      | zero => simp [splitShares, ih]
      | succ r => simp [splitShares, ih]

theorem splitShares_closed_form :
    ∀ (n share rem : Nat), rem ≤ n →
      splitShares n share rem =
        List.replicate rem (share + 1) ++ List.replicate (n - rem) share := by
  intro n
  induction n with
  | zero =>
      intro share rem h
      have : rem = 0 := Nat.le_zero.mp h
      subst this
      rfl
  | succ n ih =>
      intro share rem h
      cases rem with
      | zero =>
          rw [splitShares, ih share 0 (Nat.zero_le _)]
          simp [List.replicate_succ]
      | succ r =>
          rw [splitShares, ih share r (by omega)]
          rw [List.replicate_succ, Nat.succ_sub_succ]
          rfl

theorem mem_zipWith_splitTx (payer : Int) :
    ∀ (ps : List Int) (sh : List Nat) (t : SplitTx),
      t ∈ List.zipWith
        (fun p a => (⟨payer, p, a, "split"⟩ : SplitTx)) ps sh →
      t.kind = "split" ∧ t.creditor = payer ∧ t.amount ∈ sh := by
  intro ps
  induction ps with
  | nil =>
      intro sh t ht
      simp at ht
  | cons p ps ih =>
      intro sh t ht
      cases sh with
      | nil => simp at ht
      | cons a sh =>
          rw [List.zipWith_cons_cons] at ht
          rcases List.mem_cons.mp ht with rfl | ht
          · exact ⟨rfl, rfl, by simp⟩
          · obtain ⟨h1, h2, h3⟩ := ih sh t ht
            exact ⟨h1, h2, by simp [h3]⟩

theorem zipWith_splitTx_debtor (payer : Int) :
    ∀ (ps : List Int) (sh : List Nat), ps.length = sh.length →
      (List.zipWith
        (fun p a => (⟨payer, p, a, "split"⟩ : SplitTx)) ps sh).map
          (fun t => t.debtor) = ps := by
  intro ps
  induction ps with
  | nil =>
      intro sh _
      rfl
  | cons p ps ih =>
      intro sh hlen
      cases sh with
      | nil => simp at hlen
      | cons a sh =>
          rw [List.zipWith_cons_cons, List.map_cons, ih sh (by simpa using hlen)]

theorem zipWith_splitTx_amount (payer : Int) :
    ∀ (ps : List Int) (sh : List Nat), ps.length = sh.length →
      (List.zipWith
        (fun p a => (⟨payer, p, a, "split"⟩ : SplitTx)) ps sh).map
          (fun t => t.amount) = sh := by
  intro ps
  induction ps with
  | nil =>
      intro sh hlen
      cases sh with
      | nil => rfl
      | cons a sh => simp at hlen
  | cons p ps ih =>
      intro sh hlen
      cases sh with
      | nil => simp at hlen
      | cons a sh =>
          rw [List.zipWith_cons_cons, List.map_cons, ih sh (by simpa using hlen)]

/-! Claim C1 — the equal-split allocator (modelled from the spec; the
`split_equal` command was removed from bot.py). -/

/-- C1: for a positive total and a successful split, `splitEqual` emits one
`kind=split` transaction per participant with the payer as creditor, over
the de-duplicated payer-free participant set in ascending identifier order;
the amounts sum exactly to the total, each is `share` or `share + 1` (so no
two differ by more than one minor unit), and the amount list is exactly
`remainder` copies of `share + 1` followed by copies of `share` — the
remainder cents go to the lowest identifiers first. -/
theorem splitEqual_spec :
    ∀ (totalMinor : Nat) (payer : Int) (supplied : List Int)
      (txs : List SplitTx),
      0 < totalMinor →
      splitEqual totalMinor payer supplied = .ok txs →
      txs.length = (splitParticipants payer supplied).length ∧
        (∀ t ∈ txs, t.kind = "split" ∧ t.creditor = payer) ∧
        txs.map (fun t => t.debtor) = splitParticipants payer supplied ∧
        (splitParticipants payer supplied).Perm
          ((supplied.filter (fun x => !(x == payer))).dedup) ∧
        (splitParticipants payer supplied).Sorted (fun a b => a ≤ b) ∧
        (txs.map (fun t => t.amount)).sum = totalMinor ∧
        (∀ t ∈ txs,
          t.amount = totalMinor / (splitParticipants payer supplied).length ∨
          t.amount =
            totalMinor / (splitParticipants payer supplied).length + 1) ∧
        (∀ t ∈ txs, ∀ u ∈ txs, t.amount ≤ u.amount + 1) ∧
        txs.map (fun t => t.amount) =
          List.replicate
              (totalMinor % (splitParticipants payer supplied).length)
              (totalMinor / (splitParticipants payer supplied).length + 1) ++
            List.replicate
              ((splitParticipants payer supplied).length -
                totalMinor % (splitParticipants payer supplied).length)
              (totalMinor / (splitParticipants payer supplied).length) := by
  intro totalMinor payer supplied txs hpos hok
  simp only [splitEqual] at hok
  by_cases hps : splitParticipants payer supplied = []
  · rw [if_pos hps] at hok
    exact absurd hok (by simp)
  · rw [if_neg hps] at hok
    rw [Except.ok.injEq] at hok
    subst hok
    have hn_pos : 0 < (splitParticipants payer supplied).length :=
      List.length_pos.mpr hps
    have hrem : totalMinor -
        totalMinor / (splitParticipants payer supplied).length *
          (splitParticipants payer supplied).length =
        totalMinor % (splitParticipants payer supplied).length := by
      have hdm :=
        Nat.div_add_mod totalMinor (splitParticipants payer supplied).length
      rw [Nat.mul_comm] at hdm
      omega
    rw [hrem]
    have hrem_le : totalMinor % (splitParticipants payer supplied).length ≤
        (splitParticipants payer supplied).length :=
      Nat.le_of_lt (Nat.mod_lt _ hn_pos)
    have hshlen :
        (splitShares (splitParticipants payer supplied).length
          (totalMinor / (splitParticipants payer supplied).length)
          (totalMinor % (splitParticipants payer supplied).length)).length =
        (splitParticipants payer supplied).length :=
      length_splitShares _ _ _
    have hclosed := splitShares_closed_form
      (splitParticipants payer supplied).length
      (totalMinor / (splitParticipants payer supplied).length)
      (totalMinor % (splitParticipants payer supplied).length) hrem_le
    have hamounts := zipWith_splitTx_amount payer
      (splitParticipants payer supplied) _ hshlen.symm
    refine ⟨?_, ?_, ?_, ?_, ?_, ?_, ?_, ?_, ?_⟩
    · rw [List.length_zipWith, hshlen, Nat.min_self]
    · intro t ht
      obtain ⟨h1, h2, _⟩ := mem_zipWith_splitTx payer _ _ t ht
      exact ⟨h1, h2⟩
    · exact zipWith_splitTx_debtor payer _ _ hshlen.symm
    · exact List.perm_insertionSort _ _
    · exact List.sorted_insertionSort _ _
    · rw [hamounts, hclosed, List.sum_append, List.sum_replicate,
        List.sum_replicate, smul_eq_mul, smul_eq_mul]
      have := Nat.div_add_mod totalMinor (splitParticipants payer supplied).length
      have hlt : totalMinor % (splitParticipants payer supplied).length <
          (splitParticipants payer supplied).length := Nat.mod_lt _ hn_pos
      nlinarith [Nat.sub_add_cancel hrem_le]
    · intro t ht
      obtain ⟨_, _, h3⟩ := mem_zipWith_splitTx payer _ _ t ht
      rw [hclosed] at h3
      rcases List.mem_append.mp h3 with h | h
      · exact Or.inr (List.eq_of_mem_replicate h)
      · exact Or.inl (List.eq_of_mem_replicate h)
    · intro t ht u hu
      obtain ⟨_, _, h3⟩ := mem_zipWith_splitTx payer _ _ t ht
      obtain ⟨_, _, h4⟩ := mem_zipWith_splitTx payer _ _ u hu
      rw [hclosed] at h3 h4
      rcases List.mem_append.mp h3 with h | h <;>
        rcases List.mem_append.mp h4 with h' | h' <;>
          rw [List.eq_of_mem_replicate h, List.eq_of_mem_replicate h'] <;>
            omega
    · rw [hamounts, hclosed]

/-- Witness for C1: splitting 1000 among the supplied parties 3, 1, 2 with
payer 0 gives amounts 334, 333, 333 summing to 1000, the 334 going to the
lowest identifier. -/
theorem splitEqual_spec_witness :
    (([⟨0, 1, 334, "split"⟩, ⟨0, 2, 333, "split"⟩, ⟨0, 3, 333, "split"⟩] :
        List SplitTx).map (fun t => t.amount)).sum = 1000 ∧
      ([⟨0, 1, 334, "split"⟩, ⟨0, 2, 333, "split"⟩, ⟨0, 3, 333, "split"⟩] :
        List SplitTx).map (fun t => t.debtor) = splitParticipants 0 [3, 1, 2] :=
  ⟨(splitEqual_spec 1000 0 [3, 1, 2]
      [⟨0, 1, 334, "split"⟩, ⟨0, 2, 333, "split"⟩, ⟨0, 3, 333, "split"⟩]
      (by decide) rfl).2.2.2.2.2.1,
    (splitEqual_spec 1000 0 [3, 1, 2]
      [⟨0, 1, 334, "split"⟩, ⟨0, 2, 333, "split"⟩, ⟨0, 3, 333, "split"⟩]
      (by decide) rfl).2.2.1⟩
